import Mathlib

/-!
Shallow embedding of the Secret Santa assignment core
(`src/models.py`, `src/assignment_engine.py`, `src/csv_handler.py`).

Randomness is modelled by passing the shuffled candidate pool explicitly:
`random.shuffle` produces some permutation of the roster, so the per-attempt
shuffle appears as a parameter `shuffles : Nat → List Employee` giving the
pool used by each attempt; theorems quantify over all such oracles (with a
permutation hypothesis where the claim needs it).
-/

namespace SecretSanta

/-- Python `str.lower()` (ASCII model): lowercase every character. -/
def strLower (s : String) : String := ⟨s.data.map Char.toLower⟩

/-- Python `str.strip()`: drop leading and trailing whitespace. -/
def strTrim (s : String) : String :=
  ⟨((s.data.dropWhile Char.isWhitespace).reverse.dropWhile Char.isWhitespace).reverse⟩

/-- Model of `models.Employee`: frozen dataclass with `name` and `email` fields. -/
structure Employee where
  name : String
  email : String
deriving DecidableEq, Repr

/-- Model of `Employee.__eq__`: case-insensitive comparison on both fields. -/
def empEq (a b : Employee) : Bool :=
  (strLower a.name == strLower b.name) && (strLower a.email == strLower b.email)

/-- The tuple Python hashes in `Employee.__hash__`: `(name.lower(), email.lower())`. -/
def Employee.key (e : Employee) : String × String := (strLower e.name, strLower e.email)

/-- Model of `Employee.__hash__` composed with an arbitrary tuple-hash `h`:
Python computes `hash((name.lower(), email.lower()))`. -/
def empHash (h : String × String → Int) (e : Employee) : Int := h e.key

/-- Model of `Employee.__post_init__`: construction fails when either field is
empty or whitespace-only. -/
def Employee.make (name email : String) : Option Employee :=
  if strTrim name == "" then none
  else if strTrim email == "" then none
  else some ⟨name, email⟩

/-- Model of `models.Assignment`: ordered pair of employees. -/
structure Assignment where
  employee : Employee
  secret_child : Employee
deriving DecidableEq, Repr

/-- Model of `Assignment.__post_init__`: construction fails when the employee equals
the secret child (case-insensitively). -/
def Assignment.make (employee secret_child : Employee) : Option Assignment :=
  if empEq employee secret_child then none else some ⟨employee, secret_child⟩

/-- A CSV row for the four assignment fields; `none` models a missing field
(Python `KeyError` on access). -/
structure Row where
  Employee_Name : Option String
  Employee_EmailID : Option String
  Secret_Child_Name : Option String
  Secret_Child_EmailID : Option String
deriving DecidableEq, Repr

/-- Model of `Assignment.to_dict`. -/
def Assignment.to_dict (a : Assignment) : Row :=
  ⟨some a.employee.name, some a.employee.email,
   some a.secret_child.name, some a.secret_child.email⟩

/-- Model of `Assignment.from_dict`: reads the four fields, builds both employees and
the assignment; `none` models the `KeyError`/`ValueError` paths. -/
def Assignment.from_dict (data : Row) : Option Assignment := do
  let en ← data.Employee_Name
  let ee ← data.Employee_EmailID
  let cn ← data.Secret_Child_Name
  let ce ← data.Secret_Child_EmailID
  let employee ← Employee.make en ee
  let secret_child ← Employee.make cn ce
  Assignment.make employee secret_child

/-- Model of `CSVHandler.read_previous_assignments`, row-processing loop: each row is
parsed with `Assignment.from_dict`; rows raising `KeyError`/`ValueError`
are skipped with a warning (the `continue` branch). -/
def read_previous_assignments (rows : List Row) : List Assignment :=
  rows.filterMap Assignment.from_dict

/-- Model of `config.Config`: the two assignment-constraint settings. -/
structure Config where
  max_assignment_attempts : Nat
  min_employees : Nat
deriving DecidableEq, Repr

/-- Model of `Config._setup_defaults`: `max_assignment_attempts = 1000`,
`min_employees = 2`. -/
def Config.default : Config := ⟨1000, 2⟩

/-- Membership of `e` in a Python `set`/`dict` keyed by `Employee`
(uses `Employee.__eq__`). -/
def memEmp (l : List Employee) (e : Employee) : Bool := l.any (fun u => empEq e u)

/-- A Python `dict` keyed by `Employee`, as an association list in insertion
order. -/
def EmpDict : Type := List (Employee × Employee)

/-- Model of `dict.get(k)`: the value of the entry whose key equals `k`
under `Employee.__eq__`. -/
def dictGet (m : List (Employee × Employee)) (k : Employee) : Option Employee :=
  (m.find? (fun p => empEq p.1 k)).map (fun p => p.2)

/-- Model of `d[k] = v` on a Python dict: overwrite the value if an equal key is
present (the stored key object is kept), otherwise append a new entry. -/
def dictInsert (m : List (Employee × Employee)) (k v : Employee) :
    List (Employee × Employee) :=
  if m.any (fun p => empEq p.1 k) then
    m.map (fun p => if empEq p.1 k then (p.1, v) else p)
  else m ++ [(k, v)]

/-- The per-attempt error raised inside `_attempt_assignment`:
`AssignmentError("No valid child found")` on a failed greedy pass, or the
`ValueError` that `Assignment.__post_init__` would raise (dead code, as
`_find_valid_child` already rules out self-assignment). -/
inductive PyError where
  | assignmentError
  | valueError
deriving DecidableEq, Repr

/-- Model of `RandomDerangementStrategy._find_valid_child`: first candidate in the
shuffled pool that is unused, not the giver, and not the forbidden previous
child. -/
def find_valid_child (giver : Employee) (available : List Employee)
    (used : List Employee) (previous_child : Option Employee) : Option Employee :=
  available.find? (fun child =>
    !(memEmp used child) && !(empEq child giver) &&
      (match previous_child with
       | some p => !(empEq child p)
       | none => true))

/-- The giver loop of `RandomDerangementStrategy._attempt_assignment`:
iterates the remaining givers, accumulating used children. -/
def attemptGo (available : List Employee) (prev : List (Employee × Employee)) :
    List Employee → List Employee → Except PyError (List Assignment)
  | [], _ => .ok []
  | giver :: rest, used =>
    match find_valid_child giver available used (dictGet prev giver) with
    | none => .error .assignmentError
    | some child =>
      if empEq giver child then .error .valueError
      else
        match attemptGo available prev rest (child :: used) with
        | .error e => .error e
        | .ok assignments => .ok (⟨giver, child⟩ :: assignments)

/-- Model of `RandomDerangementStrategy._attempt_assignment` with the shuffled pool
`available` made explicit. -/
def attempt_assignment (employees : List Employee) (available : List Employee)
    (prev : List (Employee × Employee)) : Except PyError (List Assignment) :=
  attemptGo available prev employees []

/-- Outcome of `RandomDerangementStrategy.generate`: success, the two raised
exceptions, or a `ValueError` escaping the retry loop (which only catches
`AssignmentError`). -/
inductive GenResult where
  | ok (assignments : List Assignment)
  | insufficientEmployees
  | noValidAssignment
  | uncaughtValueError
deriving DecidableEq, Repr

/-- The retry loop of `generate`: `fuel` remaining attempts, `i` the index of
the next attempt (selecting its shuffle from the oracle). -/
def attemptLoop (employees : List Employee) (prev : List (Employee × Employee))
    (shuffles : Nat → List Employee) : Nat → Nat → GenResult
  | 0, _ => .noValidAssignment
  | fuel + 1, i =>
    match attempt_assignment employees (shuffles i) prev with
    | .ok assignments => .ok assignments
    | .error .assignmentError => attemptLoop employees prev shuffles fuel (i + 1)
    | .error .valueError => .uncaughtValueError

/-- Model of `RandomDerangementStrategy.generate`. -/
def generate (cfg : Config) (employees : List Employee)
    (prev : List (Employee × Employee)) (shuffles : Nat → List Employee) : GenResult :=
  if employees.length < cfg.min_employees then .insufficientEmployees
  else attemptLoop employees prev shuffles cfg.max_assignment_attempts 0

/-- Number of construction attempts the retry loop performs. -/
def loopCount (employees : List Employee) (prev : List (Employee × Employee))
    (shuffles : Nat → List Employee) : Nat → Nat → Nat
  | 0, _ => 0
  | fuel + 1, i =>
    match attempt_assignment employees (shuffles i) prev with
    | .ok _ => 1
    | .error .assignmentError => 1 + loopCount employees prev shuffles fuel (i + 1)
    | .error .valueError => 1

/-- Number of construction attempts a `generate` call performs. -/
def attemptsMade (cfg : Config) (employees : List Employee)
    (prev : List (Employee × Employee)) (shuffles : Nat → List Employee) : Nat :=
  if employees.length < cfg.min_employees then 0
  else loopCount employees prev shuffles cfg.max_assignment_attempts 0

/-- Model of `AssignmentEngine.create_assignments`, map-building step: the dict
comprehension over `previous_assignments` (later duplicates overwrite). -/
def previousMap (previous_assignments : List Assignment) :
    List (Employee × Employee) :=
  previous_assignments.foldl (fun m a => dictInsert m a.employee a.secret_child) []

/-- Model of `AssignmentEngine.create_assignments`: build the previous map, delegate to
the strategy. -/
def create_assignments (cfg : Config) (employees : List Employee)
    (previous_assignments : List Assignment) (shuffles : Nat → List Employee) :
    GenResult :=
  generate cfg employees (previousMap previous_assignments) shuffles

/-! ### Concrete instances used to exercise the definitions -/

/-- A sample employee. -/
def empA : Employee := ⟨"Alice", "alice@acme.com"⟩

/-- A second sample employee, distinct from `empA`. -/
def empB : Employee := ⟨"Bob", "bob@acme.com"⟩

/-- A third sample employee. -/
def empC : Employee := ⟨"Carol", "carol@acme.com"⟩

/-- A case-variant spelling of `empA` (same person under `Employee.__eq__`). -/
def empA2 : Employee := ⟨"ALICE", "Alice@ACME.com"⟩

/-- A two-person roster. -/
def rosterAB : List Employee := [empA, empB]

/-- A shuffle oracle that always yields `[empB, empA]`. -/
def shufflesBA : Nat → List Employee := fun _ => [empB, empA]

/-- A shuffle oracle that always yields `[empA, empB]`. -/
def shufflesAB : Nat → List Employee := fun _ => [empA, empB]

/-- A configuration with a small attempt cap, for concrete exhaustion runs. -/
def cfg3 : Config := ⟨3, 2⟩

/-- A well-formed prior-assignment row. -/
def rowGood : Row :=
  ⟨some "Alice", some "alice@acme.com", some "Bob", some "bob@acme.com"⟩

/-- A self-referential prior-assignment row (giver equals recipient up to
case), which the reader must skip. -/
def rowBad : Row :=
  ⟨some "Alice", some "alice@acme.com", some "ALICE", some "Alice@ACME.com"⟩

/-! ### Basic lemmas about the case-insensitive equality -/

theorem empEq_iff_key {a b : Employee} : empEq a b = true ↔ a.key = b.key := by
  simp [empEq, Employee.key, Prod.ext_iff]

theorem empEq_refl (a : Employee) : empEq a a = true := by
  simp [empEq]

theorem empEq_symm_key {a b : Employee} (h : empEq a b = false) : empEq b a = false := by
  by_contra hba
  rw [Bool.not_eq_false, empEq_iff_key] at hba
  exact absurd (empEq_iff_key.mpr hba.symm) (by rw [h]; exact Bool.false_ne_true)

/-- Lemma: `find_valid_child` returning a child means: the child is drawn from the
pool, is unused, differs from the giver, and differs from the forbidden
previous child. -/
theorem find_valid_child_spec {giver : Employee} {available used : List Employee}
    {previous_child : Option Employee} {child : Employee}
    (h : find_valid_child giver available used previous_child = some child) :
    child ∈ available ∧ memEmp used child = false ∧ empEq child giver = false ∧
      (∀ p, previous_child = some p → empEq child p = false) := by
  have hmem := List.mem_of_find?_eq_some h
  have hpred := List.find?_some h
  simp only [Bool.and_eq_true, Bool.not_eq_true'] at hpred
  refine ⟨hmem, hpred.1.1, hpred.1.2, ?_⟩
  intro p hp
  subst hp
  simpa using hpred.2

/-- Invariant of the giver loop: on success, the givers of the produced
assignments are exactly the remaining givers in order; every produced child
comes from the pool, differs from its giver and from the giver's forbidden
child, and is key-distinct from everything in `used`; and the produced
children are pairwise key-distinct. -/
theorem attemptGo_spec (available : List Employee) (prev : List (Employee × Employee)) :
    ∀ (givers used : List Employee) (assignments : List Assignment),
      attemptGo available prev givers used = .ok assignments →
      assignments.map (fun a => a.employee) = givers ∧
      (∀ a ∈ assignments,
        a.secret_child ∈ available ∧
        empEq a.employee a.secret_child = false ∧
        (∀ p, dictGet prev a.employee = some p → empEq a.secret_child p = false) ∧
        (∀ u ∈ used, a.secret_child.key ≠ u.key)) ∧
      (assignments.map (fun a => a.secret_child.key)).Nodup := by
  intro givers
  induction givers with
  | nil =>
    intro used assignments h
    simp only [attemptGo] at h
    cases h
    simp
  | cons giver rest ih =>
    intro used assignments h
    simp only [attemptGo] at h
    rcases hfind : find_valid_child giver available used (dictGet prev giver) with _ | child
    · rw [hfind] at h; cases h
    rw [hfind] at h
    dsimp only at h
    obtain ⟨hmem, hused, hne, hprev⟩ := find_valid_child_spec hfind
    rw [if_neg (by simp [empEq_symm_key hne])] at h
    rcases hrec : attemptGo available prev rest (child :: used) with e | rest_assignments
    · rw [hrec] at h; cases h
    rw [hrec] at h
    dsimp only at h
    cases h
    obtain ⟨ih_map, ih_each, ih_nodup⟩ := ih (child :: used) rest_assignments hrec
    have hused_keys : ∀ u ∈ used, child.key ≠ u.key := by
      intro u hu hk
      have : empEq child u = true := empEq_iff_key.mpr hk
      have : memEmp used child = true := by
        simp only [memEmp, List.any_eq_true]
        exact ⟨u, hu, this⟩
      rw [this] at hused
      cases hused
    refine ⟨by simp [ih_map], ?_, ?_⟩
    · intro a ha
      rcases List.mem_cons.mp ha with rfl | ha
      · exact ⟨hmem, empEq_symm_key hne, hprev, hused_keys⟩
      · obtain ⟨h1, h2, h3, h4⟩ := ih_each a ha
        exact ⟨h1, h2, h3, fun u hu => h4 u (List.mem_cons_of_mem _ hu)⟩
    · simp only [List.map_cons, List.nodup_cons]
      refine ⟨?_, ih_nodup⟩
      intro hk
      obtain ⟨a, ha, hak⟩ := List.mem_map.mp hk
      exact (ih_each a ha).2.2.2 child (List.mem_cons_self _ _) hak

/-- Specification of one successful construction attempt. -/
theorem attempt_assignment_spec {employees available : List Employee}
    {prev : List (Employee × Employee)} {assignments : List Assignment}
    (h : attempt_assignment employees available prev = .ok assignments) :
    assignments.map (fun a => a.employee) = employees ∧
    (∀ a ∈ assignments,
      a.secret_child ∈ available ∧
      empEq a.employee a.secret_child = false ∧
      (∀ p, dictGet prev a.employee = some p → empEq a.secret_child p = false)) ∧
    (assignments.map (fun a => a.secret_child.key)).Nodup := by
  obtain ⟨h1, h2, h3⟩ := attemptGo_spec available prev employees [] assignments h
  exact ⟨h1, fun a ha => ⟨(h2 a ha).1, (h2 a ha).2.1, (h2 a ha).2.2.1⟩, h3⟩

/-- The giver loop never raises `ValueError`: `_find_valid_child` already
rules out a child equal to the giver, so `Assignment.__post_init__` cannot
fail inside `_attempt_assignment`. -/
theorem attemptGo_ne_valueError (available : List Employee)
    (prev : List (Employee × Employee)) :
    ∀ (givers used : List Employee),
      attemptGo available prev givers used ≠ .error .valueError := by
  intro givers
  induction givers with
  | nil => intro used h; simp [attemptGo] at h
  | cons giver rest ih =>
    intro used h
    simp only [attemptGo] at h
    rcases hfind : find_valid_child giver available used (dictGet prev giver) with _ | child
    · rw [hfind] at h; cases h
    rw [hfind] at h
    dsimp only at h
    obtain ⟨-, -, hne, -⟩ := find_valid_child_spec hfind
    rw [if_neg (by simp [empEq_symm_key hne])] at h
    rcases hrec : attemptGo available prev rest (child :: used) with e | rest_assignments
    · rw [hrec] at h
      dsimp only at h
      cases h
      exact ih (child :: used) hrec
    · rw [hrec] at h
      dsimp only at h
      cases h

/-- A successful retry loop got its value from a successful attempt. -/
theorem attemptLoop_ok {employees : List Employee} {prev : List (Employee × Employee)}
    {shuffles : Nat → List Employee} {assignments : List Assignment} :
    ∀ {fuel i : Nat},
      attemptLoop employees prev shuffles fuel i = .ok assignments →
      ∃ j, attempt_assignment employees (shuffles j) prev = .ok assignments := by
  intro fuel
  induction fuel with
  | zero => intro i h; simp [attemptLoop] at h
  | succ fuel ih =>
    intro i h
    simp only [attemptLoop] at h
    rcases ha : attempt_assignment employees (shuffles i) prev with e | res
    · rw [ha] at h
      rcases e with _ | _
      · exact ih h
      · cases h
    · rw [ha] at h
      dsimp only at h
      cases h
      exact ⟨i, ha⟩

/-- The retry loop only ever sees `AssignmentError`, so the `ValueError`
escape branch is unreachable. -/
theorem attemptLoop_ne_uncaught (employees : List Employee)
    (prev : List (Employee × Employee)) (shuffles : Nat → List Employee) :
    ∀ (fuel i : Nat),
      attemptLoop employees prev shuffles fuel i ≠ .uncaughtValueError := by
  intro fuel
  induction fuel with
  | zero => intro i h; simp [attemptLoop] at h
  | succ fuel ih =>
    intro i h
    simp only [attemptLoop] at h
    rcases ha : attempt_assignment employees (shuffles i) prev with e | res
    · rw [ha] at h
      rcases e with _ | _
      · exact ih (i + 1) h
      · exact attemptGo_ne_valueError (shuffles i) prev employees [] ha
    · rw [ha] at h
      cases h

/-- The loop performs at most `fuel` attempts. -/
theorem loopCount_le (employees : List Employee) (prev : List (Employee × Employee))
    (shuffles : Nat → List Employee) :
    ∀ (fuel i : Nat), loopCount employees prev shuffles fuel i ≤ fuel := by
  intro fuel
  induction fuel with
  | zero => intro i; simp [loopCount]
  | succ fuel ih =>
    intro i
    simp only [loopCount]
    rcases attempt_assignment employees (shuffles i) prev with e | res
    · rcases e with _ | _
      · dsimp only
        have := ih (i + 1)
        omega
      · dsimp only
        omega
    · dsimp only
      omega

/-- Exhaustion means every one of the `fuel` attempts was made. -/
theorem attemptLoop_noValid_count {employees : List Employee}
    {prev : List (Employee × Employee)} {shuffles : Nat → List Employee} :
    ∀ {fuel i : Nat},
      attemptLoop employees prev shuffles fuel i = .noValidAssignment →
      loopCount employees prev shuffles fuel i = fuel := by
  intro fuel
  induction fuel with
  | zero => intro i _; simp [loopCount]
  | succ fuel ih =>
    intro i h
    simp only [attemptLoop] at h
    simp only [loopCount]
    rcases ha : attempt_assignment employees (shuffles i) prev with e | res
    · rw [ha] at h
      rcases e with _ | _
      · dsimp only at h ⊢
        rw [ih h]
        omega
      · cases h
    · rw [ha] at h
      cases h

/-- If every attempt fails, the loop exhausts and reports no valid
assignment. -/
theorem attemptLoop_allFail {employees : List Employee}
    {prev : List (Employee × Employee)} {shuffles : Nat → List Employee}
    (hall : ∀ j, attempt_assignment employees (shuffles j) prev =
      .error .assignmentError) :
    ∀ (fuel i : Nat),
      attemptLoop employees prev shuffles fuel i = .noValidAssignment := by
  intro fuel
  induction fuel with
  | zero => intro i; simp [attemptLoop]
  | succ fuel ih =>
    intro i
    simp only [attemptLoop, hall i]
    exact ih (i + 1)

/-- A successful `generate` got its value from a successful attempt on one of
the oracle's shuffles. -/
theorem generate_ok {cfg : Config} {employees : List Employee}
    {prev : List (Employee × Employee)} {shuffles : Nat → List Employee}
    {assignments : List Assignment}
    (h : generate cfg employees prev shuffles = .ok assignments) :
    ∃ j, attempt_assignment employees (shuffles j) prev = .ok assignments := by
  unfold generate at h
  split at h
  · cases h
  · exact attemptLoop_ok h

/-- On a roster with pairwise key-distinct members, the children of a
successful attempt are a key-permutation of the roster. -/
theorem attempt_recipients_perm {employees available : List Employee}
    {prev : List (Employee × Employee)} {assignments : List Assignment}
    (hperm : available.Perm employees)
    (h : attempt_assignment employees available prev = .ok assignments) :
    (assignments.map (fun a => a.secret_child.key)).Perm
      (employees.map Employee.key) := by
  obtain ⟨hmap, heach, hnodup⟩ := attempt_assignment_spec h
  have hsub : (assignments.map (fun a => a.secret_child.key)) ⊆
      employees.map Employee.key := by
    intro x hx
    obtain ⟨a, ha, rfl⟩ := List.mem_map.mp hx
    have hmem : a.secret_child ∈ employees := hperm.mem_iff.mp (heach a ha).1
    exact List.mem_map.mpr ⟨a.secret_child, hmem, rfl⟩
  have hlen_eq : assignments.length = employees.length := by
    have := congrArg List.length hmap
    simpa using this
  have hsp := List.subperm_of_subset hnodup hsub
  exact hsp.perm_of_length_le (by simp [hlen_eq])

/-- A list permuting a two-element list is one of its two arrangements. -/
theorem perm_pair_cases {α : Type} {l : List α} {a b : α} (h : l.Perm [a, b]) :
    l = [a, b] ∨ l = [b, a] := by
  obtain ⟨x, y, rfl⟩ := List.length_eq_two.mp h.length_eq
  have hx : x ∈ [a, b] := h.mem_iff.mp (by simp)
  simp only [List.mem_cons, List.mem_singleton, List.not_mem_nil, or_false] at hx
  rcases hx with hxa | hxb
  · left
    rw [hxa] at h ⊢
    have hy : [y] = [b] := List.perm_singleton.mp h.cons_inv
    simp only [List.cons.injEq, and_true] at hy
    rw [hy]
  · right
    rw [hxb] at h ⊢
    have hswap : ([a, b] : List α).Perm [b, a] := List.Perm.swap b a []
    have hy : [y] = [a] := List.perm_singleton.mp ((h.trans hswap).cons_inv)
    simp only [List.cons.injEq, and_true] at hy
    rw [hy]

/-- One-step unfolding of the retry loop. -/
theorem attemptLoop_succ (employees : List Employee)
    (prev : List (Employee × Employee)) (shuffles : Nat → List Employee)
    (fuel i : Nat) :
    attemptLoop employees prev shuffles (fuel + 1) i =
      match attempt_assignment employees (shuffles i) prev with
      | .ok assignments => .ok assignments
      | .error .assignmentError => attemptLoop employees prev shuffles fuel (i + 1)
      | .error .valueError => .uncaughtValueError := rfl

/-- One-step unfolding of the attempt counter. -/
theorem loopCount_succ (employees : List Employee)
    (prev : List (Employee × Employee)) (shuffles : Nat → List Employee)
    (fuel i : Nat) :
    loopCount employees prev shuffles (fuel + 1) i =
      match attempt_assignment employees (shuffles i) prev with
      | .ok _ => 1
      | .error .assignmentError => 1 + loopCount employees prev shuffles fuel (i + 1)
      | .error .valueError => 1 := rfl

/-! ### Claim theorems -/

/-- C1: for every roster of pairwise-distinct participants (case-insensitive)
and every forbidden-pair map, a successful `generate` returns the roster as
givers in original order, and its recipients are pairwise-distinct roster
members, each appearing exactly once (the output is a bijection of the
roster, stated as a permutation of the case-insensitive keys). -/
theorem generate_bijection (cfg : Config) (employees : List Employee)
    (prev : List (Employee × Employee)) (shuffles : Nat → List Employee)
    (assignments : List Assignment)
    (hnd : (employees.map Employee.key).Nodup)
    (hsh : ∀ i, (shuffles i).Perm employees)
    (hok : generate cfg employees prev shuffles = .ok assignments) :
    assignments.map (fun a => a.employee) = employees ∧
    (assignments.map (fun a => a.secret_child.key)).Nodup ∧
    (assignments.map (fun a => a.secret_child.key)).Perm
      (employees.map Employee.key) := by
  obtain ⟨j, hj⟩ := generate_ok hok
  have _ := hnd
  exact ⟨(attempt_assignment_spec hj).1, (attempt_assignment_spec hj).2.2,
    attempt_recipients_perm (hsh j) hj⟩

/-- C1 witness: a concrete successful run on the two-person roster. -/
theorem generate_bijection_witness :
    ([Assignment.mk empA empB, Assignment.mk empB empA].map
        (fun a => a.employee) = rosterAB) ∧
    (([Assignment.mk empA empB, Assignment.mk empB empA].map
        (fun a => a.secret_child.key)).Nodup) ∧
    (([Assignment.mk empA empB, Assignment.mk empB empA].map
        (fun a => a.secret_child.key)).Perm (rosterAB.map Employee.key)) :=
  generate_bijection Config.default rosterAB [] shufflesBA
    [Assignment.mk empA empB, Assignment.mk empB empA]
    (by decide) (fun i => by show ([empB, empA] : List Employee).Perm rosterAB; decide)
    (by decide)

/-- C2: every pair of a successful `generate` has giver ≠ recipient under the
case-insensitive equality, and an `Assignment` can be constructed exactly
when its members differ (construction with equal members fails). -/
theorem generate_no_fixed_point (cfg : Config) (employees : List Employee)
    (prev : List (Employee × Employee)) (shuffles : Nat → List Employee)
    (assignments : List Assignment)
    (hok : generate cfg employees prev shuffles = .ok assignments) :
    (∀ a ∈ assignments, empEq a.employee a.secret_child = false) ∧
    (∀ e c, (Assignment.make e c).isSome ↔ empEq e c = false) := by
  obtain ⟨j, hj⟩ := generate_ok hok
  refine ⟨fun a ha => ((attempt_assignment_spec hj).2.1 a ha).2.1, ?_⟩
  intro e c
  by_cases h : empEq e c = true
  · simp [Assignment.make, h]
  · simp only [Bool.not_eq_true] at h
    simp [Assignment.make, h]

/-- C2 witness: the no-fixed-point property on a concrete successful run. -/
theorem generate_no_fixed_point_witness :
    (∀ a ∈ [Assignment.mk empA empB, Assignment.mk empB empA],
      empEq a.employee a.secret_child = false) ∧
    (∀ e c, (Assignment.make e c).isSome ↔ empEq e c = false) :=
  generate_no_fixed_point Config.default rosterAB [] shufflesBA
    [Assignment.mk empA empB, Assignment.mk empB empA] (by decide)

/-- C3: in every successful `generate` output, a giver with an entry in the
forbidden-pair map receives a recipient differing (case-insensitively) from
that forbidden recipient. -/
theorem generate_no_overlap (cfg : Config) (employees : List Employee)
    (prev : List (Employee × Employee)) (shuffles : Nat → List Employee)
    (assignments : List Assignment)
    (hok : generate cfg employees prev shuffles = .ok assignments) :
    ∀ a ∈ assignments, ∀ p, dictGet prev a.employee = some p →
      empEq a.secret_child p = false := by
  obtain ⟨j, hj⟩ := generate_ok hok
  exact fun a ha => ((attempt_assignment_spec hj).2.1 a ha).2.2

/-- C3 witness: a concrete run with a forbidden pair, checked at its giver. -/
theorem generate_no_overlap_witness :
    empEq (Assignment.mk empB empA).secret_child empB = false :=
  generate_no_overlap Config.default rosterAB [(empB, empB)] shufflesBA
    [Assignment.mk empA empB, Assignment.mk empB empA] (by decide)
    (Assignment.mk empB empA) (by decide) empB (by decide)

/-- C4: `generate` never lets a per-attempt error escape (the `ValueError`
branch is unreachable and `AssignmentError` is always converted into a
retry), performs at most `max_assignment_attempts` attempts, exhausts the
cap exactly when it reports `NoValidAssignmentFound`, and reports it
whenever every attempt fails (so it never loops unboundedly). -/
theorem generate_bounded_attempts (cfg : Config) (employees : List Employee)
    (prev : List (Employee × Employee)) (shuffles : Nat → List Employee) :
    generate cfg employees prev shuffles ≠ .uncaughtValueError ∧
    attemptsMade cfg employees prev shuffles ≤ cfg.max_assignment_attempts ∧
    (generate cfg employees prev shuffles = .noValidAssignment →
      attemptsMade cfg employees prev shuffles = cfg.max_assignment_attempts) ∧
    (¬ employees.length < cfg.min_employees →
      (∀ j, attempt_assignment employees (shuffles j) prev =
        .error .assignmentError) →
      generate cfg employees prev shuffles = .noValidAssignment) := by
  refine ⟨?_, ?_, ?_, ?_⟩
  · unfold generate
    split
    · intro h; cases h
    · exact attemptLoop_ne_uncaught employees prev shuffles _ 0
  · unfold attemptsMade
    split
    · exact Nat.zero_le _
    · exact loopCount_le employees prev shuffles _ 0
  · unfold generate attemptsMade
    split
    · intro h; cases h
    · exact fun h => attemptLoop_noValid_count h
  · intro hlen hall
    unfold generate
    rw [if_neg hlen]
    exact attemptLoop_allFail hall _ 0

/-- C4 witness: the two-person roster where the sole non-self candidate is
forbidden exhausts the (here 3) attempts and fails. -/
theorem generate_bounded_attempts_witness :
    generate cfg3 rosterAB [(empA, empB)] shufflesAB = .noValidAssignment ∧
    attemptsMade cfg3 rosterAB [(empA, empB)] shufflesAB = 3 := by
  have h := (generate_bounded_attempts cfg3 rosterAB [(empA, empB)] shufflesAB).2.2
  have hgen : generate cfg3 rosterAB [(empA, empB)] shufflesAB =
      .noValidAssignment :=
    h.2 (by decide)
      (fun j => by
        show attempt_assignment rosterAB [empA, empB] [(empA, empB)] =
          .error .assignmentError
        rfl)
  exact ⟨hgen, h.1 hgen⟩

/-- C5: a roster smaller than the configured minimum always fails with
`InsufficientParticipants` and performs zero construction attempts. -/
theorem generate_insufficient (cfg : Config) (employees : List Employee)
    (prev : List (Employee × Employee)) (shuffles : Nat → List Employee)
    (h : employees.length < cfg.min_employees) :
    generate cfg employees prev shuffles = .insufficientEmployees ∧
    attemptsMade cfg employees prev shuffles = 0 := by
  unfold generate attemptsMade
  rw [if_pos h, if_pos h]
  exact ⟨rfl, rfl⟩

/-- C5 witness: a one-person roster under the default configuration. -/
theorem generate_insufficient_witness :
    generate Config.default [empA] [] shufflesAB = .insufficientEmployees ∧
    attemptsMade Config.default [empA] [] shufflesAB = 0 :=
  generate_insufficient Config.default [empA] [] shufflesAB (by decide)

/-- C6: on a two-person roster of distinct participants with no forbidden
pairs, `generate` succeeds on the very first attempt and returns exactly
A→B, B→A, for every outcome of the random shuffle. -/
theorem generate_two_forced (A B : Employee) (shuffles : Nat → List Employee)
    (hAB : empEq A B = false)
    (hsh : (shuffles 0).Perm [A, B]) :
    generate Config.default [A, B] [] shuffles =
      .ok [Assignment.mk A B, Assignment.mk B A] ∧
    attemptsMade Config.default [A, B] [] shuffles = 1 := by
  have hBA := empEq_symm_key hAB
  have hatt : attempt_assignment [A, B] (shuffles 0) [] =
      .ok [Assignment.mk A B, Assignment.mk B A] := by
    rcases perm_pair_cases hsh with h0 | h0 <;>
      rw [h0] <;>
      simp [attempt_assignment, attemptGo, find_valid_child, memEmp, dictGet,
        hAB, hBA, empEq_refl, List.find?]
  constructor
  · unfold generate
    rw [if_neg (by simp [Config.default])]
    show attemptLoop [A, B] [] shuffles (999 + 1) 0 = _
    rw [attemptLoop_succ, hatt]
  · unfold attemptsMade
    rw [if_neg (by simp [Config.default])]
    show loopCount [A, B] [] shuffles (999 + 1) 0 = 1
    rw [loopCount_succ, hatt]

/-- C6 witness: the concrete two-person roster with the swapped shuffle. -/
theorem generate_two_forced_witness :
    generate Config.default [empA, empB] [] shufflesBA =
      .ok [Assignment.mk empA empB, Assignment.mk empB empA] ∧
    attemptsMade Config.default [empA, empB] [] shufflesBA = 1 :=
  generate_two_forced empA empB shufflesBA (by decide)
    (by show ([empB, empA] : List Employee).Perm [empA, empB]; decide)

/-- Equal keys make an employee interchangeable on the right of `empEq`. -/
theorem empEq_congr_right {a b : Employee} (hk : a.key = b.key) (x : Employee) :
    empEq x a = empEq x b := by
  rcases hxb : empEq x b with _ | _
  · rcases hxa : empEq x a with _ | _
    · rfl
    · exact absurd (empEq_iff_key.mpr ((empEq_iff_key.mp hxa).trans hk))
        (by simp [hxb])
  · exact empEq_iff_key.mpr ((empEq_iff_key.mp hxb).trans hk.symm)

/-- C8: two participants are equal exactly when both name and contact match
ignoring case; hashing (of the lowered tuple, under any tuple-hash) is
consistent with this equality; and equal participants are interchangeable as
keys of the forbidden-pair map. -/
theorem employee_eq_hash (a b : Employee) :
    (empEq a b = true ↔
      (strLower a.name = strLower b.name ∧ strLower a.email = strLower b.email)) ∧
    (empEq a b = true → ∀ h : String × String → Int, empHash h a = empHash h b) ∧
    (empEq a b = true → ∀ m : List (Employee × Employee),
      dictGet m a = dictGet m b) := by
  refine ⟨by simp [empEq], ?_, ?_⟩
  · intro hab h
    unfold empHash
    rw [empEq_iff_key.mp hab]
  · intro hab m
    unfold dictGet
    have hfun : (fun p : Employee × Employee => empEq p.1 a) =
        (fun p : Employee × Employee => empEq p.1 b) := by
      funext p
      exact empEq_congr_right (empEq_iff_key.mp hab) p.1
    rw [hfun]

/-- C8 witness: a case-variant spelling of the same person hashes alike and
acts as the same forbidden-map key. -/
theorem employee_eq_hash_witness :
    empHash (fun p => Int.ofNat (p.1.length + p.2.length)) empA =
      empHash (fun p => Int.ofNat (p.1.length + p.2.length)) empA2 ∧
    dictGet [(empA2, empB)] empA = dictGet [(empA2, empB)] empA2 :=
  ⟨(employee_eq_hash empA empA2).2.1 (by decide) _,
   (employee_eq_hash empA empA2).2.2 (by decide) _⟩

/-- Overwriting the entries keyed like `k` does not disturb lookups at a key
not equal to `k`. -/
theorem find?_map_upd (k v e : Employee) (hke : empEq k e = false) :
    ∀ m : List (Employee × Employee),
      ((m.map (fun p => if empEq p.1 k then (p.1, v) else p)).find?
        (fun p => empEq p.1 e)).map (fun p => p.2) =
      (m.find? (fun p => empEq p.1 e)).map (fun p => p.2) := by
  intro m
  induction m with
  | nil => rfl
  | cons p rest ih =>
    rcases hpk : empEq p.1 k with _ | _
    · simp only [List.map_cons, hpk, Bool.false_eq_true, if_false]
      rcases hpe : empEq p.1 e with _ | _
      · rw [List.find?_cons_of_neg _ (by simp [hpe]),
          List.find?_cons_of_neg _ (by simp [hpe])]
        exact ih
      · rw [List.find?_cons_of_pos _ (by simp [hpe]),
          List.find?_cons_of_pos _ (by simp [hpe])]
    · have hpe : empEq p.1 e = false := by
        rcases hpe : empEq p.1 e with _ | _
        · rfl
        · exact absurd (empEq_iff_key.mpr
            ((empEq_iff_key.mp hpk).symm.trans (empEq_iff_key.mp hpe)))
            (by simp [hke])
      simp only [List.map_cons, hpk, if_true]
      rw [List.find?_cons_of_neg _ (by simp [hpe]),
        List.find?_cons_of_neg _ (by simp [hpe])]
      exact ih

/-- Overwriting the entries keyed like `k` makes a lookup at a key equal to
`k` read the new value, provided some entry matches `k`. -/
theorem find?_map_upd_eq (k v e : Employee) (hke : empEq k e = true) :
    ∀ m : List (Employee × Employee), m.any (fun p => empEq p.1 k) = true →
      ((m.map (fun p => if empEq p.1 k then (p.1, v) else p)).find?
        (fun p => empEq p.1 e)).map (fun p => p.2) = some v := by
  intro m
  induction m with
  | nil => intro h; cases h
  | cons p rest ih =>
    intro hany
    rcases hpk : empEq p.1 k with _ | _
    · have hpe : empEq p.1 e = false := by
        rcases hpe : empEq p.1 e with _ | _
        · rfl
        · exact absurd (empEq_iff_key.mpr
            ((empEq_iff_key.mp hpe).trans (empEq_iff_key.mp hke).symm))
            (by simp [hpk])
      simp only [List.map_cons, hpk, Bool.false_eq_true, if_false]
      rw [List.find?_cons_of_neg _ (by simp [hpe])]
      apply ih
      simpa [List.any_cons, hpk] using hany
    · have hpe : empEq p.1 e = true := empEq_iff_key.mpr
        ((empEq_iff_key.mp hpk).trans (empEq_iff_key.mp hke))
      simp only [List.map_cons, hpk, if_true]
      rw [List.find?_cons_of_pos _ (by simp [hpe])]
      rfl

/-- Lookup after a Python-dict insertion: an equal key reads the new value,
any other key is untouched. -/
theorem dictGet_insert (m : List (Employee × Employee)) (k v e : Employee) :
    dictGet (dictInsert m k v) e = if empEq k e then some v else dictGet m e := by
  unfold dictInsert
  rcases hany : m.any (fun p => empEq p.1 k) with _ | _
  · simp only [Bool.false_eq_true, if_false]
    unfold dictGet
    rw [List.find?_append]
    rcases hke : empEq k e with _ | _
    · have h1 : List.find? (fun p => empEq p.1 e) [(k, v)] = none := by
        simp [List.find?, hke]
      rw [h1, Option.or_none]
      simp
    · have hall : ∀ p ∈ m, empEq p.1 k = false :=
        fun p hp => by simpa using (List.any_eq_false.mp hany) p hp
      have hmnone : List.find? (fun p => empEq p.1 e) m = none := by
        rw [List.find?_eq_none]
        intro p hp hpe
        have : empEq p.1 k = true := empEq_iff_key.mpr
          ((empEq_iff_key.mp hpe).trans (empEq_iff_key.mp hke).symm)
        rw [hall p hp] at this
        cases this
      rw [hmnone, Option.none_or]
      simp [List.find?, hke]
  · simp only [if_true]
    unfold dictGet
    rcases hke : empEq k e with _ | _
    · simp only [Bool.false_eq_true, if_false]
      exact find?_map_upd k v e hke m
    · simp only [if_true]
      exact find?_map_upd_eq k v e hke m hany

/-- Folding the history into a dict: a lookup returns the value of the last
matching record, falling back to the initial dict. -/
theorem dictGet_foldl (e : Employee) :
    ∀ (records : List Assignment) (m : List (Employee × Employee)),
      dictGet (records.foldl (fun m a => dictInsert m a.employee a.secret_child) m) e =
        match records.reverse.find? (fun r => empEq r.employee e) with
        | some r => some r.secret_child
        | none => dictGet m e := by
  intro records
  induction records with
  | nil => intro m; rfl
  | cons r rs ih =>
    intro m
    rw [List.foldl_cons, ih, List.reverse_cons, List.find?_append]
    rcases h1 : rs.reverse.find? (fun r => empEq r.employee e) with _ | q
    · rw [h1]
      simp only [Option.none_or, dictGet_insert]
      rcases hre : empEq r.employee e with _ | _
      · simp [List.find?, hre]
      · simp [List.find?, hre]
    · rw [h1]
      rfl

/-- Lemma: `previousMap` looks up the last historical record of a giver
(later records for the same giver overwrite earlier ones). -/
theorem previousMap_lookup (records : List Assignment) (e : Employee) :
    dictGet (previousMap records) e =
      (records.reverse.find? (fun r => empEq r.employee e)).map
        (fun r => r.secret_child) := by
  rw [previousMap, dictGet_foldl]
  rcases h : records.reverse.find? (fun r => empEq r.employee e) with _ | q
  · rw [h]
    rfl
  · rw [h]
    rfl

/-- The keys (lowered name/contact pairs) of a dict. -/
def dictKeys (m : List (Employee × Employee)) : List (String × String) :=
  m.map (fun p => p.1.key)

/-- Python-dict insertion preserves key distinctness. -/
theorem dictInsert_keys_nodup {m : List (Employee × Employee)} (k v : Employee)
    (h : (dictKeys m).Nodup) : (dictKeys (dictInsert m k v)).Nodup := by
  unfold dictInsert
  rcases hany : m.any (fun p => empEq p.1 k) with _ | _
  · simp only [Bool.false_eq_true, if_false]
    unfold dictKeys
    rw [List.map_append]
    rw [List.nodup_append]
    refine ⟨h, List.nodup_singleton _, ?_⟩
    intro x hx hx2
    simp only [List.map_cons, List.map_nil, List.mem_singleton] at hx2
    obtain ⟨p, hp, hpx⟩ := List.mem_map.mp hx
    have hpk : empEq p.1 k = false := by
      simpa using (List.any_eq_false.mp hany) p hp
    have : empEq p.1 k = true := empEq_iff_key.mpr (by rw [hpx, hx2])
    rw [hpk] at this
    cases this
  · simp only [if_true]
    unfold dictKeys
    have hsame : (m.map (fun p => if empEq p.1 k then (p.1, v) else p)).map
        (fun p => p.1.key) = m.map (fun p => p.1.key) := by
      rw [List.map_map]
      apply List.map_congr_left
      intro p hp
      simp only [Function.comp]
      split <;> rfl
    rw [hsame]
    exact h

/-- The forbidden-pair map built from history has pairwise-distinct keys:
one entry per distinct giver. -/
theorem previousMap_keys_nodup (records : List Assignment) :
    (dictKeys (previousMap records)).Nodup := by
  unfold previousMap
  have hgen : ∀ (rs : List Assignment) (m : List (Employee × Employee)),
      (dictKeys m).Nodup →
      (dictKeys (rs.foldl (fun m a => dictInsert m a.employee a.secret_child) m)).Nodup := by
    intro rs
    induction rs with
    | nil => intro m hm; exact hm
    | cons r rest ih =>
      intro m hm
      rw [List.foldl_cons]
      exact ih _ (dictInsert_keys_nodup _ _ hm)
  exact hgen records [] (by simp [dictKeys])

/-- C7: `create_assignments` builds the forbidden-pair map deterministically
with one entry per distinct giver, later history records for a giver
overwriting earlier ones; every historical giver has an entry; and the call
delegates to the generator with that map and the unmodified roster,
returning its result (hence propagating failures) unchanged. -/
theorem create_assignments_spec (cfg : Config) (employees : List Employee)
    (records : List Assignment) (shuffles : Nat → List Employee) :
    create_assignments cfg employees records shuffles =
      generate cfg employees (previousMap records) shuffles ∧
    (dictKeys (previousMap records)).Nodup ∧
    (∀ e, dictGet (previousMap records) e =
      (records.reverse.find? (fun r => empEq r.employee e)).map
        (fun r => r.secret_child)) ∧
    (∀ r ∈ records, (dictGet (previousMap records) r.employee).isSome) := by
  refine ⟨rfl, previousMap_keys_nodup records, previousMap_lookup records, ?_⟩
  intro r hr
  rw [previousMap_lookup, Option.isSome_map']
  rw [List.find?_isSome]
  exact ⟨r, List.mem_reverse.mpr hr, empEq_refl r.employee⟩

/-- C7 witness: with a duplicate giver in the history (in case-variant
spelling), the later record wins, and the giver of a record always has an
entry. -/
theorem create_assignments_spec_witness :
    dictGet (previousMap [Assignment.mk empA empB, Assignment.mk empA2 empC])
      empA = some empC ∧
    (dictGet (previousMap [Assignment.mk empA empB, Assignment.mk empA2 empC])
      (Assignment.mk empA empB).employee).isSome := by
  constructor
  · rw [(create_assignments_spec Config.default rosterAB
      [Assignment.mk empA empB, Assignment.mk empA2 empC] shufflesAB).2.2.1 empA]
    decide
  · exact (create_assignments_spec Config.default rosterAB
      [Assignment.mk empA empB, Assignment.mk empA2 empC] shufflesAB).2.2.2
      (Assignment.mk empA empB) (by decide)

/-- Inversion for `Employee.make`: success yields exactly the given fields,
both non-blank. -/
theorem employee_make_some {n e : String} {emp : Employee}
    (h : Employee.make n e = some emp) :
    emp = ⟨n, e⟩ ∧ strTrim n ≠ "" ∧ strTrim e ≠ "" := by
  unfold Employee.make at h
  split at h
  · cases h
  · split at h
    · cases h
    · cases h
      refine ⟨rfl, ?_, ?_⟩ <;> simp_all

/-- Inversion for `Assignment.make`: success yields exactly the given pair,
with distinct members. -/
theorem assignment_make_some {x y : Employee} {a : Assignment}
    (h : Assignment.make x y = some a) :
    a = ⟨x, y⟩ ∧ empEq x y = false := by
  unfold Assignment.make at h
  split at h
  · cases h
  · cases h
    refine ⟨rfl, ?_⟩
    simp_all

/-- Inversion for `Assignment.from_dict`: a successfully parsed record is
well-formed (non-blank fields) and not self-referential. -/
theorem from_dict_some {row : Row} {a : Assignment}
    (h : Assignment.from_dict row = some a) :
    empEq a.employee a.secret_child = false ∧
    strTrim a.employee.name ≠ "" ∧ strTrim a.employee.email ≠ "" ∧
    strTrim a.secret_child.name ≠ "" ∧ strTrim a.secret_child.email ≠ "" := by
  unfold Assignment.from_dict at h
  simp only [Option.bind_eq_bind, Option.bind_eq_some] at h
  obtain ⟨en, hen, ee, hee, cn, hcn, ce, hce, emp, hemp, child, hchild, hmk⟩ := h
  obtain ⟨rfl, hn1, hn2⟩ := employee_make_some hemp
  obtain ⟨rfl, hn3, hn4⟩ := employee_make_some hchild
  obtain ⟨rfl, hne⟩ := assignment_make_some hmk
  exact ⟨hne, hn1, hn2, hn3, hn4⟩

/-- C9: the prior-assignment reader returns only well-formed,
non-self-referential records; a row that fails to parse is skipped (the rest
is still processed), and a row that parses is kept in order — no row aborts
the read. -/
theorem read_previous_assignments_spec (rows : List Row) :
    (∀ a ∈ read_previous_assignments rows,
      empEq a.employee a.secret_child = false ∧
      strTrim a.employee.name ≠ "" ∧ strTrim a.employee.email ≠ "" ∧
      strTrim a.secret_child.name ≠ "" ∧ strTrim a.secret_child.email ≠ "") ∧
    (∀ row rest, Assignment.from_dict row = none →
      read_previous_assignments (row :: rest) = read_previous_assignments rest) ∧
    (∀ row rest a, Assignment.from_dict row = some a →
      read_previous_assignments (row :: rest) =
        a :: read_previous_assignments rest) := by
  refine ⟨?_, ?_, ?_⟩
  · intro a ha
    obtain ⟨row, hrow, hsome⟩ := List.mem_filterMap.mp ha
    exact from_dict_some hsome
  · intro row rest h
    simp [read_previous_assignments, List.filterMap_cons, h]
  · intro row rest a h
    simp [read_previous_assignments, List.filterMap_cons, h]

/-- C9 witness: a malformed (self-referential) row is skipped and the
returned record is well-formed. -/
theorem read_previous_assignments_witness :
    read_previous_assignments [rowBad, rowGood] =
      read_previous_assignments [rowGood] ∧
    empEq (Assignment.mk empA empB).employee
      (Assignment.mk empA empB).secret_child = false :=
  ⟨(read_previous_assignments_spec [rowGood]).2.1 rowBad [rowGood] (by decide),
   ((read_previous_assignments_spec [rowGood]).1 (Assignment.mk empA empB)
      (by decide)).1⟩

/-- C10: serializing an assignment to its four-field record and parsing it
back yields the same assignment, for every assignment whose members are
well-formed (the `Employee` construction invariant) and distinct (the
`Assignment` construction invariant). -/
theorem assignment_roundtrip (a : Assignment)
    (h1 : strTrim a.employee.name ≠ "") (h2 : strTrim a.employee.email ≠ "")
    (h3 : strTrim a.secret_child.name ≠ "") (h4 : strTrim a.secret_child.email ≠ "")
    (h5 : empEq a.employee a.secret_child = false) :
    Assignment.from_dict a.to_dict = some a := by
  obtain ⟨⟨n, e⟩, ⟨cn, ce⟩⟩ := a
  simp only at h1 h2 h3 h4 h5
  have e1 : Employee.make n e = some ⟨n, e⟩ := by
    unfold Employee.make
    rw [if_neg (by simp [h1]), if_neg (by simp [h2])]
  have e2 : Employee.make cn ce = some ⟨cn, ce⟩ := by
    unfold Employee.make
    rw [if_neg (by simp [h3]), if_neg (by simp [h4])]
  simp only [Assignment.to_dict, Assignment.from_dict, Option.bind_eq_bind,
    Option.some_bind, e1, e2]
  unfold Assignment.make
  rw [if_neg (by simp [h5])]

/-- C10 witness: the round-trip evaluated on a concrete assignment. -/
theorem assignment_roundtrip_witness :
    Assignment.from_dict (Assignment.mk empA empB).to_dict =
      some (Assignment.mk empA empB) :=
  assignment_roundtrip (Assignment.mk empA empB) (by decide) (by decide)
    (by decide) (by decide) (by decide)

end SecretSanta
